import Mathlib

/-!
Verification of the UTXO tracking and coin-selection core of the
`tatum-demo` Bitcoin testnet wallet.

The embedding covers:
* `analyzeUTXOs` from `src/getUTXos.js` — the two-pass ledger-state
  reconstruction (spent-set pass, classification pass, aggregation);
* the greedy coin selection inlined in `sendTransaction`
  (`src/sendBTC.js`, lines 193–215);
* `calculateMaxSendable` from `src/sendBTC.js` (lines 110–113).

Conventions of the embedding:
* satoshi values are `Nat` (the JS code only ever manipulates non-negative
  integer satoshi amounts in these functions);
* `tx.blockNumber` is `Option Nat`; the JS test
  `blockNumber !== undefined && blockNumber !== null` becomes `isSome`;
* `tx.hash` is `Option String`: the JS template literal coerces an absent
  hash to the string "undefined" instead of failing, which `jsShow` mirrors;
* a JS `TypeError` thrown by dereferencing `input.prevout.hash` when
  `prevout` is `undefined` aborts `analyzeUTXOs` with no observable partial
  result, so the embedding returns `Option`: `none` models that crash;
* the JS `Map` keyed by the string `` `${hash}:${index}` `` is modelled by an
  insertion-ordered association list with in-place overwrite (`mapSet`),
  exactly the observable behaviour of `Map.set`/iteration order;
* the JS `Set` of spent keys is modelled by the list of keys added to it;
  the code only queries membership (`has`), modelled by `List.contains`.
-/

/-- One element of a transaction's `outputs` array: `{ address, value }`. -/
structure Output where
  address : String
  value : Nat
  deriving Repr, DecidableEq

/-- The `coin` object attached to an input when the spent output's owner is
known: `{ address, value }` (only those two fields are read by the code). -/
structure Coin where
  address : String
  value : Nat
  deriving Repr, DecidableEq

/-- The `prevout` object of an input: `{ hash, index }`. -/
structure Prevout where
  hash : String
  index : Nat
  deriving Repr, DecidableEq

/-- One element of a transaction's `inputs` array.  `coin` is absent when the
spent output's owning address is unknown; `prevout` is optional in the model
so that the code's unconditional dereference of `input.prevout` can be
analysed (claim C9). -/
structure Input where
  coin : Option Coin
  prevout : Option Prevout
  deriving Repr, DecidableEq

/-- A transaction record as consumed by `analyzeUTXOs`.  `hash` is optional
in the model so that records missing the field (claim C8) can be analysed;
the JS code never checks its presence. -/
structure Tx where
  hash : Option String
  blockNumber : Option Nat
  outputs : List Output
  inputs : List Input
  deriving Repr, DecidableEq

/-- JS template-literal coercion of a possibly-absent string:
`` `${undefined}` `` is the string "undefined". -/
def jsShow : Option String → String
  | some s => s
  | none => "undefined"

/-- The string key used for the `utxos` map and the `spentUtxos` set:
`` `${hash}:${index}` ``. -/
def utxoKey (h : String) (i : Nat) : String :=
  h ++ ":" ++ toString i

/-- The derived UTXO entry stored in the `utxos` map:
`{ value, spent, confirmed }`. -/
structure UtxoEntry where
  value : Nat
  spent : Bool
  confirmed : Bool
  deriving Repr, DecidableEq

/-- One element of the returned `unspentUTXOs` array:
`{ utxo: key, value, confirmed }`. -/
structure UnspentUTXO where
  utxo : String
  value : Nat
  confirmed : Bool
  deriving Repr, DecidableEq

/-- JS `Map.set` on an insertion-ordered association list: an existing key
is overwritten in place (its position is kept), a new key is appended. -/
def mapSet (k : String) (v : UtxoEntry) : List (String × UtxoEntry) → List (String × UtxoEntry)
  | [] => [(k, v)]
  | (k', v') :: rest => if k' = k then (k, v) :: rest else (k', v') :: mapSet k v rest

/-- First pass over one transaction's `inputs` array: collect the spent-set
keys.  Mirrors
`if (input.coin && input.coin.address === address) spentUtxos.add(prevout.hash:prevout.index)`;
dereferencing an absent `prevout` throws, modelled by `none`. -/
def spentInputs (address : String) : List Input → Option (List String)
  | [] => some []
  | inp :: rest =>
    match inp.coin with
    | some c =>
      if c.address = address then
        match inp.prevout with
        | some p => (spentInputs address rest).map (utxoKey p.hash p.index :: ·)
        | none => none
      else spentInputs address rest
    | none => spentInputs address rest

/-- First pass over the whole transaction list (`// First pass: Mark all
spent UTXOs`). -/
def spentPass (address : String) : List Tx → Option (List String)
  | [] => some []
  | tx :: rest =>
    (spentInputs address tx.inputs).bind fun ks =>
      (spentPass address rest).map fun rest' => ks ++ rest'

/-- Mutable state of the second pass: the `utxos` map and the four running
counters. -/
structure AnalyzeState where
  utxos : List (String × UtxoEntry)
  incoming : Nat
  outgoing : Nat
  incomingPending : Nat
  outgoingPending : Nat
  deriving Repr, DecidableEq

def initState : AnalyzeState := ⟨[], 0, 0, 0, 0⟩

/-- Second-pass body of `for (let i = 0; i < tx.outputs.length; i++)`:
classify each output paying the tracked address, keyed by
`` `${tx.hash}:${i}` ``, and accumulate incoming amounts. -/
def processOutputs (address hs : String) (isConfirmed : Bool) (spentKeys : List String) :
    AnalyzeState → Nat → List Output → AnalyzeState
  | st, _, [] => st
  | st, i, o :: rest =>
    let st' :=
      if o.address = address then
        let key := utxoKey hs i
        let isSpent := spentKeys.contains key
        { st with
            utxos := mapSet key ⟨o.value, isSpent, isConfirmed⟩ st.utxos,
            incoming := if isConfirmed then st.incoming + o.value else st.incoming,
            incomingPending :=
              if isConfirmed then st.incomingPending else st.incomingPending + o.value }
      else st
    processOutputs address hs isConfirmed spentKeys st' (i + 1) rest

/-- Second-pass body of `// Process inputs (spending)`: accumulate outgoing
amounts by the consuming transaction's confirmation state. -/
def processInputs (address : String) (isConfirmed : Bool) :
    AnalyzeState → List Input → AnalyzeState
  | st, [] => st
  | st, inp :: rest =>
    let st' :=
      match inp.coin with
      | some c =>
        if c.address = address then
          if isConfirmed then { st with outgoing := st.outgoing + c.value }
          else { st with outgoingPending := st.outgoingPending + c.value }
        else st
      | none => st
    processInputs address isConfirmed st' rest

/-- The second pass for one transaction. -/
def processTx (address : String) (spentKeys : List String) (st : AnalyzeState) (tx : Tx) :
    AnalyzeState :=
  let isConfirmed := tx.blockNumber.isSome
  let st' := processOutputs address (jsShow tx.hash) isConfirmed spentKeys st 0 tx.outputs
  processInputs address isConfirmed st' tx.inputs

/-- The final aggregation loop: `for (const [key, utxo] of utxos.entries())
if (!utxo.spent && utxo.confirmed) availableBalance += utxo.value`. -/
def availableBalanceOf : List (String × UtxoEntry) → Nat
  | [] => 0
  | (_, e) :: rest =>
    if !e.spent && e.confirmed then e.value + availableBalanceOf rest
    else availableBalanceOf rest

/-- The object returned by `analyzeUTXOs`.  `utxos` is the final contents of
the internal `utxos` map in insertion order; the JS function returns only the
aggregates and `unspentUTXOs` derived from it, but the map is the UTXO set
the specification speaks about, so the embedding exposes it.  The
presentation-only field `availableBalanceBTC` (a float division by 1e8) is
omitted. -/
structure BalanceResult where
  incoming : Nat
  outgoing : Nat
  incomingPending : Nat
  outgoingPending : Nat
  availableBalance : Nat
  utxos : List (String × UtxoEntry)
  unspentUTXOs : List UnspentUTXO
  deriving Repr, DecidableEq

/-- The second pass, aggregation and result construction of `analyzeUTXOs`,
given the spent-set computed by the first pass. -/
def buildResult (address : String) (transactions : List Tx) (spentKeys : List String) :
    BalanceResult :=
  let st := transactions.foldl (processTx address spentKeys) initState
  { incoming := st.incoming
    outgoing := st.outgoing
    incomingPending := st.incomingPending
    outgoingPending := st.outgoingPending
    availableBalance := availableBalanceOf st.utxos
    utxos := st.utxos
    unspentUTXOs :=
      (st.utxos.filter fun p => !p.2.spent).map fun p =>
        ⟨p.1, p.2.value, p.2.confirmed⟩ }

/-- `analyzeUTXOs(address, transactions)` from `src/getUTXos.js`. -/
def analyzeUTXOs (address : String) (transactions : List Tx) : Option BalanceResult :=
  (spentPass address transactions).map (buildResult address transactions)

/-!  Coin selection, from `sendTransaction` in `src/sendBTC.js`.  -/

/-- Stable insertion preserving descending order of `value`; together with
`sortByValueDesc` this realises the JS stable sort
`.sort((a, b) => b.value - a.value)`. -/
def insertDesc (u : UnspentUTXO) : List UnspentUTXO → List UnspentUTXO
  | [] => [u]
  | v :: rest => if u.value < v.value then v :: insertDesc u rest else u :: v :: rest

/-- `balance.unspentUTXOs.filter(confirmed).sort((a, b) => b.value - a.value)`
(the sort part; the filter is applied at the call site below). -/
def sortByValueDesc : List UnspentUTXO → List UnspentUTXO
  | [] => []
  | u :: rest => insertDesc u (sortByValueDesc rest)

/-- The selection loop of `sendTransaction`: push each UTXO, add its value,
and break as soon as the running sum reaches `requiredAmount`.  Returns the
selected list and the final `inputSum`. -/
def selectGreedy (requiredAmount : Nat) : List UnspentUTXO → Nat → List UnspentUTXO × Nat
  | [], inputSum => ([], inputSum)
  | u :: rest, inputSum =>
    let inputSum' := inputSum + u.value
    if requiredAmount ≤ inputSum' then ([u], inputSum')
    else
      let r := selectGreedy requiredAmount rest inputSum'
      (u :: r.1, r.2)

/-- The Selection Plan: chosen entries, their summed value, and the residual
change `inputSum - requestedAmount - fee` (an integer, computed as JS
arithmetic would). -/
structure SelectionPlan where
  selected : List UnspentUTXO
  inputSum : Nat
  change : Int
  deriving Repr, DecidableEq

/-- The Insufficient-Funds error carries the two amounts reported by
`Insufficient confirmed funds. Have ${inputSum}, need ${requiredAmount}`. -/
structure InsufficientFunds where
  have_ : Nat
  need : Nat
  deriving Repr, DecidableEq

/-- The coin-selection portion of `sendTransaction` (`src/sendBTC.js`,
lines 193–215): filter confirmed entries, sort by value descending, greedily
accumulate until `amountSatoshis + feeSatoshis` is covered, and fail with
Insufficient-Funds when the eligible set is exhausted first. -/
def selectUtxos (unspentUTXOs : List UnspentUTXO) (amountSatoshis feeSatoshis : Nat) :
    Except InsufficientFunds SelectionPlan :=
  let sortedUtxos := sortByValueDesc (unspentUTXOs.filter fun u => u.confirmed)
  let requiredAmount := amountSatoshis + feeSatoshis
  let r := selectGreedy requiredAmount sortedUtxos 0
  if r.2 < requiredAmount then .error ⟨r.2, requiredAmount⟩
  else .ok ⟨r.1, r.2, (r.2 : Int) - (requiredAmount : Int)⟩

/-- `calculateMaxSendable(availableBalance, feeInSatoshis)` from
`src/sendBTC.js` (lines 110–113); JS subtraction can go negative, so the
arguments and result are integers. -/
def calculateMaxSendable (availableBalance feeInSatoshis : Int) : Int :=
  let maxSendable := availableBalance - feeInSatoshis
  if maxSendable > 0 then maxSendable else 0

/-- Sum of the `value` fields of a list of unspent entries. -/
def sumVals (l : List UnspentUTXO) : Nat :=
  (l.map fun u => u.value).sum

/-- Sum of `value` over the outputs that pay `address`. -/
def outsIncoming (address : String) (outs : List Output) : Nat :=
  ((outs.filter fun o => o.address = address).map fun o => o.value).sum

/-- Sum of `coin.value` over the inputs whose coin belongs to `address`. -/
def inpsOutgoing (address : String) (inps : List Input) : Nat :=
  (inps.map fun inp =>
    match inp.coin with
    | some c => if c.address = address then c.value else 0
    | none => 0).sum

/-- Positional decode of a digit string (most significant first). -/
def digitsVal (l : List Char) : Nat :=
  l.foldl (fun a c => 10 * a + (c.toNat - 48)) 0

/-- The string under which a transaction's outputs are keyed:
`` `${tx.hash}` `` with JS coercion of an absent hash. -/
def hashStr (tx : Tx) : String := jsShow tx.hash

/-- The entries the classification pass inserts for a list of outputs,
starting at index `i`. -/
def outEntries (address hs : String) (conf : Bool) (keys : List String) :
    Nat → List Output → List (String × UtxoEntry)
  | _, [] => []
  | i, o :: rest =>
    if o.address = address then
      (utxoKey hs i, ⟨o.value, keys.contains (utxoKey hs i), conf⟩) ::
        outEntries address hs conf keys (i + 1) rest
    else outEntries address hs conf keys (i + 1) rest

/-- The entries one transaction contributes to the UTXO map. -/
def txEntries (address : String) (keys : List String) (tx : Tx) :
    List (String × UtxoEntry) :=
  outEntries address (hashStr tx) tx.blockNumber.isSome keys 0 tx.outputs
/-! ### Basic lemmas about `sumVals` and the stable descending sort -/

theorem sumVals_nil : sumVals [] = 0 := rfl

theorem sumVals_cons (u : UnspentUTXO) (l : List UnspentUTXO) :
    sumVals (u :: l) = u.value + sumVals l := by
  simp [sumVals]

theorem sumVals_append (l₁ l₂ : List UnspentUTXO) :
    sumVals (l₁ ++ l₂) = sumVals l₁ + sumVals l₂ := by
  simp [sumVals]

theorem sumVals_take_le (l : List UnspentUTXO) (j : Nat) :
    sumVals (l.take j) ≤ sumVals l := by
  have h := sumVals_append (l.take j) (l.drop j)
  rw [List.take_append_drop] at h
  omega

theorem insertDesc_perm (u : UnspentUTXO) (l : List UnspentUTXO) :
    (insertDesc u l).Perm (u :: l) := by
  induction l with
  | nil => simp [insertDesc]
  | cons v rest ih =>
    simp only [insertDesc]
    split
    · exact ((ih.cons v).trans (List.Perm.swap u v rest))
    · exact List.Perm.refl _

theorem sortByValueDesc_perm (l : List UnspentUTXO) :
    (sortByValueDesc l).Perm l := by
  induction l with
  | nil => exact List.Perm.refl _
  | cons u rest ih => exact (insertDesc_perm u (sortByValueDesc rest)).trans (ih.cons u)

theorem sumVals_sortByValueDesc (l : List UnspentUTXO) :
    sumVals (sortByValueDesc l) = sumVals l := by
  have := ((sortByValueDesc_perm l).map fun u => u.value).sum_eq
  simpa [sumVals] using this

theorem insertDesc_pairwise (u : UnspentUTXO) (l : List UnspentUTXO)
    (h : l.Pairwise fun a b => b.value ≤ a.value) :
    (insertDesc u l).Pairwise fun a b => b.value ≤ a.value := by
  induction l with
  | nil => simp [insertDesc]
  | cons v rest ih =>
    rcases h with _ | ⟨hv, hrest⟩
    simp only [insertDesc]
    split
    · rename_i hlt
      refine List.Pairwise.cons ?_ (ih hrest)
      intro b hb
      rcases List.mem_cons.mp (((insertDesc_perm u rest).mem_iff).mp hb) with rfl | hb'
      · omega
      · exact hv b hb'
    · rename_i hge
      push_neg at hge
      refine List.Pairwise.cons ?_ (List.Pairwise.cons hv hrest)
      intro b hb
      rcases List.mem_cons.mp hb with rfl | hb'
      · omega
      · have := hv b hb'; omega

theorem sortByValueDesc_pairwise (l : List UnspentUTXO) :
    (sortByValueDesc l).Pairwise fun a b => b.value ≤ a.value := by
  induction l with
  | nil => simp [sortByValueDesc]
  | cons u rest ih => exact insertDesc_pairwise u _ ih

/-! ### The greedy selection loop -/

/-- Characterisation of the selection loop: starting below the threshold, it
selects exactly the shortest prefix whose accumulated sum reaches
`requiredAmount`, or the whole list (reporting its total) when the threshold
is unreachable. -/
theorem selectGreedy_spec (req : Nat) :
    ∀ (l : List UnspentUTXO) (acc : Nat), acc < req →
      ∃ k, k ≤ l.length ∧
        (selectGreedy req l acc).1 = l.take k ∧
        (selectGreedy req l acc).2 = acc + sumVals (l.take k) ∧
        (∀ j, j < k → acc + sumVals (l.take j) < req) ∧
        (req ≤ acc + sumVals (l.take k) ∨ (k = l.length ∧ acc + sumVals l < req)) := by
  intro l
  induction l with
  | nil =>
    intro acc hacc
    refine ⟨0, by simp, by simp [selectGreedy], by simp [selectGreedy, sumVals], by omega,
      Or.inr ⟨rfl, ?_⟩⟩
    simpa [sumVals] using hacc
  | cons u rest ih =>
    intro acc hacc
    by_cases hstop : req ≤ acc + u.value
    · refine ⟨1, by simp, ?_, ?_, ?_, Or.inl ?_⟩
      · simp [selectGreedy, hstop]
      · simp [selectGreedy, hstop, sumVals_cons, sumVals_nil]
      · intro j hj
        interval_cases j
        simpa [sumVals_nil] using hacc
      · simpa [sumVals_cons, sumVals_nil] using hstop
    · push_neg at hstop
      obtain ⟨k, hk, h1, h2, h3, h4⟩ := ih (acc + u.value) hstop
      refine ⟨k + 1, by simpa using hk, ?_, ?_, ?_, ?_⟩
      · simp [selectGreedy, not_le.mpr hstop, h1]
      · simp only [selectGreedy, if_neg (not_le.mpr hstop)]
        simpa [sumVals_cons] using by omega
      · intro j hj
        cases j with
        | zero => simpa [sumVals_nil] using hacc
        | succ j' =>
          have := h3 j' (by omega)
          simp only [List.take_succ_cons, sumVals_cons]
          omega
      · rcases h4 with h4 | ⟨hlen, hshort⟩
        · exact Or.inl (by simp only [List.take_succ_cons, sumVals_cons]; omega)
        · exact Or.inr ⟨by simpa using hlen, by simp [sumVals_cons]; omega⟩

/-- When the whole list cannot reach the threshold, the loop consumes it all
and reports the total. -/
theorem selectGreedy_exhausted (req : Nat) :
    ∀ (l : List UnspentUTXO) (acc : Nat), acc + sumVals l < req →
      selectGreedy req l acc = (l, acc + sumVals l) := by
  intro l
  induction l with
  | nil => intro acc h; simp [selectGreedy, sumVals]
  | cons u rest ih =>
    intro acc h
    rw [sumVals_cons] at h
    have hnot : ¬ req ≤ acc + u.value := by omega
    have := ih (acc + u.value) (by omega)
    simp [selectGreedy, hnot, this, sumVals_cons]
    omega

/-! ### Claims about the coin selector and `calculateMaxSendable` -/

/-- C1: for every list of unspent entries, every requestedAmount > 0 and
fee ≥ 0 whose confirmed total covers requestedAmount + fee, the coin
selector succeeds and selects exactly the shortest prefix of the confirmed
entries sorted by value descending whose summed value reaches
requestedAmount + fee; the summed value of the selection is ≥
requestedAmount + fee, the residual change is ≥ 0, and every selected entry
is confirmed. -/
theorem claim_C1 (unspentEntries : List UnspentUTXO) (requestedAmount fee : Nat)
    (hpos : 0 < requestedAmount)
    (hfunds : requestedAmount + fee ≤
      sumVals (unspentEntries.filter fun u => u.confirmed)) :
    ∃ plan k,
      selectUtxos unspentEntries requestedAmount fee = Except.ok plan ∧
      plan.selected =
        (sortByValueDesc (unspentEntries.filter fun u => u.confirmed)).take k ∧
      (sortByValueDesc (unspentEntries.filter fun u => u.confirmed)).Perm
        (unspentEntries.filter fun u => u.confirmed) ∧
      (sortByValueDesc (unspentEntries.filter fun u => u.confirmed)).Pairwise
        (fun a b => b.value ≤ a.value) ∧
      (∀ j, j < k →
        sumVals ((sortByValueDesc (unspentEntries.filter fun u => u.confirmed)).take j) <
          requestedAmount + fee) ∧
      requestedAmount + fee ≤ sumVals plan.selected ∧
      plan.inputSum = sumVals plan.selected ∧
      plan.change = (plan.inputSum : Int) - (requestedAmount : Int) - (fee : Int) ∧
      0 ≤ plan.change ∧
      ∀ u ∈ plan.selected, u.confirmed = true := by
  have hperm := sortByValueDesc_perm (unspentEntries.filter fun u => u.confirmed)
  have hpair := sortByValueDesc_pairwise (unspentEntries.filter fun u => u.confirmed)
  have hsum := sumVals_sortByValueDesc (unspentEntries.filter fun u => u.confirmed)
  obtain ⟨k, hk, h1, h2, h3, h4⟩ := selectGreedy_spec (requestedAmount + fee)
      (sortByValueDesc (unspentEntries.filter fun u => u.confirmed)) 0 (by omega)
  have hcover : requestedAmount + fee ≤
      sumVals ((sortByValueDesc (unspentEntries.filter fun u => u.confirmed)).take k) := by
    rcases h4 with h4 | ⟨hlen, hshort⟩
    · omega
    · omega
  have hnotlt : ¬ ((selectGreedy (requestedAmount + fee)
      (sortByValueDesc (unspentEntries.filter fun u => u.confirmed)) 0).2 <
        requestedAmount + fee) := by
    rw [h2]; omega
  have hok : selectUtxos unspentEntries requestedAmount fee =
      Except.ok
        ⟨(sortByValueDesc (unspentEntries.filter fun u => u.confirmed)).take k,
         sumVals ((sortByValueDesc (unspentEntries.filter fun u => u.confirmed)).take k),
         (sumVals ((sortByValueDesc (unspentEntries.filter fun u => u.confirmed)).take k) : Int) -
           ((requestedAmount + fee : Nat) : Int)⟩ := by
    unfold selectUtxos
    simp only [h1, h2, Nat.zero_add]
    rw [if_neg (by omega)]
  refine ⟨_, k, hok, rfl, hperm, hpair, ?_, hcover, rfl, ?_, ?_, ?_⟩
  · intro j hj
    have := h3 j hj
    omega
  · push_cast
    ring
  · simp only []
    have : (0 : Int) ≤
        (sumVals ((sortByValueDesc (unspentEntries.filter fun u => u.confirmed)).take k) : Int) -
          ((requestedAmount + fee : Nat) : Int) := by
      push_cast
      omega
    exact this
  · intro u hu
    have hmem : u ∈ sortByValueDesc (unspentEntries.filter fun u => u.confirmed) :=
      List.mem_of_mem_take hu
    have : u ∈ unspentEntries.filter (fun u => u.confirmed) := hperm.mem_iff.mp hmem
    exact (List.mem_filter.mp this).2

/-- Witness for C1, instantiating Scenario A of the specification: a single
confirmed 50000-satoshi entry funds a 10000-satoshi request with 1000 fee. -/
theorem claim_C1_witness :
    (0 : Nat) < 10000 ∧
    ∃ plan, selectUtxos [⟨"a:0", 50000, true⟩] 10000 1000 = Except.ok plan ∧
      10000 + 1000 ≤ sumVals plan.selected ∧ 0 ≤ plan.change := by
  refine ⟨by decide, ?_⟩
  obtain ⟨plan, k, hok, hsel, hperm, hpair, hmin, hcov, hsum, hch, hch0, hconf⟩ :=
    claim_C1 [⟨"a:0", 50000, true⟩] 10000 1000 (by decide) (by decide)
  exact ⟨plan, hok, hcov, hch0⟩

/-- C4: when the confirmed total is strictly below requestedAmount + fee,
coin selection fails with the Insufficient-Funds error reporting the amount
available (`have_`) and the amount required (`need`), so the shortfall
`need - have_` is determined. -/
theorem claim_C4 (unspentEntries : List UnspentUTXO) (requestedAmount fee : Nat)
    (_hpos : 0 < requestedAmount)
    (hshort : sumVals (unspentEntries.filter fun u => u.confirmed) <
      requestedAmount + fee) :
    selectUtxos unspentEntries requestedAmount fee =
      Except.error
        ⟨sumVals (unspentEntries.filter fun u => u.confirmed), requestedAmount + fee⟩ := by
  have hsum := sumVals_sortByValueDesc (unspentEntries.filter fun u => u.confirmed)
  have hex := selectGreedy_exhausted (requestedAmount + fee)
      (sortByValueDesc (unspentEntries.filter fun u => u.confirmed)) 0 (by omega)
  unfold selectUtxos
  simp only [hex, Nat.zero_add]
  rw [if_pos (by omega), hsum]

/-- Witness for C4, instantiating Scenario D of the specification: eligible
entries totaling 900 with request 1000 and fee 100 yield Insufficient-Funds
with a shortfall of 200. -/
theorem claim_C4_witness :
    selectUtxos [⟨"a:0", 900, true⟩] 1000 100 = Except.error ⟨900, 1100⟩ ∧
      (1100 : Nat) - 900 = 200 := by
  constructor
  · exact claim_C4 [⟨"a:0", 900, true⟩] 1000 100 (by decide) (by decide)
  · decide

/-- C10: `calculateMaxSendable` returns `availableBalance - feeInSatoshis`
when that difference is positive and 0 otherwise, and its result is never
negative. -/
theorem claim_C10 (availableBalance feeInSatoshis : Int) :
    (0 < availableBalance - feeInSatoshis →
      calculateMaxSendable availableBalance feeInSatoshis =
        availableBalance - feeInSatoshis) ∧
    (availableBalance - feeInSatoshis ≤ 0 →
      calculateMaxSendable availableBalance feeInSatoshis = 0) ∧
    0 ≤ calculateMaxSendable availableBalance feeInSatoshis := by
  refine ⟨fun h => ?_, fun h => ?_, ?_⟩ <;>
    simp only [calculateMaxSendable] <;> split <;> omega

/-- Witness for C10 at concrete inputs, including a fee exceeding the
balance. -/
theorem claim_C10_witness :
    calculateMaxSendable 10 3 = 10 - 3 ∧ calculateMaxSendable 5 8 = 0 ∧
      0 ≤ calculateMaxSendable 5 8 :=
  ⟨(claim_C10 10 3).1 (by decide), (claim_C10 5 8).2.1 (by decide), (claim_C10 5 8).2.2⟩

/-! ### Characterising the second-pass counters and the aggregation loop -/

theorem analyzeUTXOs_eq_some (address : String) (txs : List Tx) (r : BalanceResult) :
    analyzeUTXOs address txs = some r ↔
      ∃ ks, spentPass address txs = some ks ∧ r = buildResult address txs ks := by
  unfold analyzeUTXOs
  cases hks : spentPass address txs with
  | none => simp
  | some ks => simp [eq_comm]

theorem availableBalanceOf_eq (l : List (String × UtxoEntry)) :
    availableBalanceOf l =
      ((l.filter fun p => !p.2.spent && p.2.confirmed).map fun p => p.2.value).sum := by
  induction l with
  | nil => rfl
  | cons p rest ih =>
    obtain ⟨k, e⟩ := p
    cases h : (!e.spent && e.confirmed) with
    | true => simp [availableBalanceOf, h, ih, List.filter_cons]
    | false => simp [availableBalanceOf, h, ih, List.filter_cons]

theorem outsIncoming_nil (address : String) : outsIncoming address [] = 0 := rfl

theorem outsIncoming_cons (address : String) (o : Output) (rest : List Output) :
    outsIncoming address (o :: rest) =
      (if o.address = address then o.value else 0) + outsIncoming address rest := by
  by_cases h : o.address = address <;> simp [outsIncoming, h, List.filter_cons]

theorem inpsOutgoing_cons (address : String) (inp : Input) (rest : List Input) :
    inpsOutgoing address (inp :: rest) =
      (match inp.coin with
        | some c => if c.address = address then c.value else 0
        | none => 0) + inpsOutgoing address rest := by
  simp [inpsOutgoing]

theorem processOutputs_incoming (address hs : String) (conf : Bool) (keys : List String) :
    ∀ (outs : List Output) (st : AnalyzeState) (i : Nat),
      (processOutputs address hs conf keys st i outs).incoming =
        st.incoming + (if conf then outsIncoming address outs else 0) := by
  intro outs
  induction outs with
  | nil => intro st i; cases conf <;> simp [processOutputs, outsIncoming]
  | cons o rest ih =>
    intro st i
    rw [outsIncoming_cons]
    by_cases h : o.address = address <;>
      cases conf <;> simp [processOutputs, h, ih] <;> omega

theorem processOutputs_incomingPending (address hs : String) (conf : Bool) (keys : List String) :
    ∀ (outs : List Output) (st : AnalyzeState) (i : Nat),
      (processOutputs address hs conf keys st i outs).incomingPending =
        st.incomingPending + (if conf then 0 else outsIncoming address outs) := by
  intro outs
  induction outs with
  | nil => intro st i; cases conf <;> simp [processOutputs, outsIncoming]
  | cons o rest ih =>
    intro st i
    rw [outsIncoming_cons]
    by_cases h : o.address = address <;>
      cases conf <;> simp [processOutputs, h, ih] <;> omega

theorem processOutputs_outgoing (address hs : String) (conf : Bool) (keys : List String) :
    ∀ (outs : List Output) (st : AnalyzeState) (i : Nat),
      (processOutputs address hs conf keys st i outs).outgoing = st.outgoing := by
  intro outs
  induction outs with
  | nil => intro st i; simp [processOutputs]
  | cons o rest ih =>
    intro st i
    by_cases h : o.address = address <;> simp [processOutputs, h, ih]

theorem processOutputs_outgoingPending (address hs : String) (conf : Bool) (keys : List String) :
    ∀ (outs : List Output) (st : AnalyzeState) (i : Nat),
      (processOutputs address hs conf keys st i outs).outgoingPending = st.outgoingPending := by
  intro outs
  induction outs with
  | nil => intro st i; simp [processOutputs]
  | cons o rest ih =>
    intro st i
    by_cases h : o.address = address <;> simp [processOutputs, h, ih]

theorem processInputs_outgoing (address : String) (conf : Bool) :
    ∀ (inps : List Input) (st : AnalyzeState),
      (processInputs address conf st inps).outgoing =
        st.outgoing + (if conf then inpsOutgoing address inps else 0) := by
  intro inps
  induction inps with
  | nil => intro st; cases conf <;> simp [processInputs, inpsOutgoing]
  | cons inp rest ih =>
    intro st
    rw [inpsOutgoing_cons]
    cases hc : inp.coin with
    | none => cases conf <;> simp [processInputs, hc, ih] <;> omega
    | some c =>
      by_cases h : c.address = address <;>
        cases conf <;> simp [processInputs, hc, h, ih] <;> omega

theorem processInputs_outgoingPending (address : String) (conf : Bool) :
    ∀ (inps : List Input) (st : AnalyzeState),
      (processInputs address conf st inps).outgoingPending =
        st.outgoingPending + (if conf then 0 else inpsOutgoing address inps) := by
  intro inps
  induction inps with
  | nil => intro st; cases conf <;> simp [processInputs, inpsOutgoing]
  | cons inp rest ih =>
    intro st
    rw [inpsOutgoing_cons]
    cases hc : inp.coin with
    | none => cases conf <;> simp [processInputs, hc, ih] <;> omega
    | some c =>
      by_cases h : c.address = address <;>
        cases conf <;> simp [processInputs, hc, h, ih] <;> omega

theorem processInputs_incoming (address : String) (conf : Bool) :
    ∀ (inps : List Input) (st : AnalyzeState),
      (processInputs address conf st inps).incoming = st.incoming := by
  intro inps
  induction inps with
  | nil => intro st; simp [processInputs]
  | cons inp rest ih =>
    intro st
    cases hc : inp.coin with
    | none => simp [processInputs, hc, ih]
    | some c =>
      by_cases h : c.address = address <;> cases conf <;> simp [processInputs, hc, h, ih]

theorem processInputs_incomingPending (address : String) (conf : Bool) :
    ∀ (inps : List Input) (st : AnalyzeState),
      (processInputs address conf st inps).incomingPending = st.incomingPending := by
  intro inps
  induction inps with
  | nil => intro st; simp [processInputs]
  | cons inp rest ih =>
    intro st
    cases hc : inp.coin with
    | none => simp [processInputs, hc, ih]
    | some c =>
      by_cases h : c.address = address <;> cases conf <;> simp [processInputs, hc, h, ih]

theorem processInputs_utxos (address : String) (conf : Bool) :
    ∀ (inps : List Input) (st : AnalyzeState),
      (processInputs address conf st inps).utxos = st.utxos := by
  intro inps
  induction inps with
  | nil => intro st; simp [processInputs]
  | cons inp rest ih =>
    intro st
    cases hc : inp.coin with
    | none => simp [processInputs, hc, ih]
    | some c =>
      by_cases h : c.address = address <;> cases conf <;> simp [processInputs, hc, h, ih]

theorem processTx_incoming (address : String) (keys : List String) (st : AnalyzeState) (tx : Tx) :
    (processTx address keys st tx).incoming =
      st.incoming + (if tx.blockNumber.isSome then outsIncoming address tx.outputs else 0) := by
  unfold processTx
  rw [processInputs_incoming, processOutputs_incoming]

theorem processTx_incomingPending (address : String) (keys : List String) (st : AnalyzeState)
    (tx : Tx) :
    (processTx address keys st tx).incomingPending =
      st.incomingPending +
        (if tx.blockNumber.isSome then 0 else outsIncoming address tx.outputs) := by
  unfold processTx
  rw [processInputs_incomingPending, processOutputs_incomingPending]

theorem processTx_outgoing (address : String) (keys : List String) (st : AnalyzeState) (tx : Tx) :
    (processTx address keys st tx).outgoing =
      st.outgoing + (if tx.blockNumber.isSome then inpsOutgoing address tx.inputs else 0) := by
  unfold processTx
  rw [processInputs_outgoing, processOutputs_outgoing]

theorem processTx_outgoingPending (address : String) (keys : List String) (st : AnalyzeState)
    (tx : Tx) :
    (processTx address keys st tx).outgoingPending =
      st.outgoingPending +
        (if tx.blockNumber.isSome then 0 else inpsOutgoing address tx.inputs) := by
  unfold processTx
  rw [processInputs_outgoingPending, processOutputs_outgoingPending]

theorem processTx_utxos (address : String) (keys : List String) (st : AnalyzeState) (tx : Tx) :
    (processTx address keys st tx).utxos =
      (processOutputs address (jsShow tx.hash) tx.blockNumber.isSome keys st 0 tx.outputs).utxos := by
  unfold processTx
  rw [processInputs_utxos]

theorem foldl_incoming (address : String) (keys : List String) :
    ∀ (txs : List Tx) (st : AnalyzeState),
      (txs.foldl (processTx address keys) st).incoming =
        st.incoming +
          ((txs.filter fun tx => tx.blockNumber.isSome).map
            fun tx => outsIncoming address tx.outputs).sum := by
  intro txs
  induction txs with
  | nil => intro st; simp
  | cons tx rest ih =>
    intro st
    rw [List.foldl_cons, ih, processTx_incoming, List.filter_cons]
    cases h : tx.blockNumber.isSome <;> simp <;> omega

theorem foldl_incomingPending (address : String) (keys : List String) :
    ∀ (txs : List Tx) (st : AnalyzeState),
      (txs.foldl (processTx address keys) st).incomingPending =
        st.incomingPending +
          ((txs.filter fun tx => !tx.blockNumber.isSome).map
            fun tx => outsIncoming address tx.outputs).sum := by
  intro txs
  induction txs with
  | nil => intro st; simp
  | cons tx rest ih =>
    intro st
    rw [List.foldl_cons, ih, processTx_incomingPending, List.filter_cons]
    cases h : tx.blockNumber.isSome <;> simp <;> omega

theorem foldl_outgoing (address : String) (keys : List String) :
    ∀ (txs : List Tx) (st : AnalyzeState),
      (txs.foldl (processTx address keys) st).outgoing =
        st.outgoing +
          ((txs.filter fun tx => tx.blockNumber.isSome).map
            fun tx => inpsOutgoing address tx.inputs).sum := by
  intro txs
  induction txs with
  | nil => intro st; simp
  | cons tx rest ih =>
    intro st
    rw [List.foldl_cons, ih, processTx_outgoing, List.filter_cons]
    cases h : tx.blockNumber.isSome <;> simp <;> omega

theorem foldl_outgoingPending (address : String) (keys : List String) :
    ∀ (txs : List Tx) (st : AnalyzeState),
      (txs.foldl (processTx address keys) st).outgoingPending =
        st.outgoingPending +
          ((txs.filter fun tx => !tx.blockNumber.isSome).map
            fun tx => inpsOutgoing address tx.inputs).sum := by
  intro txs
  induction txs with
  | nil => intro st; simp
  | cons tx rest ih =>
    intro st
    rw [List.foldl_cons, ih, processTx_outgoingPending, List.filter_cons]
    cases h : tx.blockNumber.isSome <;> simp <;> omega

/-! ### Claims about the aggregates -/

/-- C2: the `availableBalance` computed by the reconstruction equals the sum
of `value` over exactly the UTXO entries with `spent = false` and
`confirmed = true`; pending and spent output values are never included. -/
theorem claim_C2 (address : String) (transactions : List Tx) (r : BalanceResult)
    (h : analyzeUTXOs address transactions = some r) :
    r.availableBalance =
      ((r.utxos.filter fun p => !p.2.spent && p.2.confirmed).map fun p => p.2.value).sum := by
  obtain ⟨ks, hks, rfl⟩ := (analyzeUTXOs_eq_some address transactions r).mp h
  simp only [buildResult]
  exact availableBalanceOf_eq _

/-- Witness for C2: a confirmed 100-satoshi output and a pending
20000-satoshi output; only the former counts. -/
theorem claim_C2_witness :
    ∃ r,
      analyzeUTXOs "a"
        [⟨some "x", some 5, [⟨"a", 100⟩], []⟩, ⟨some "y", none, [⟨"a", 20000⟩], []⟩] = some r ∧
      r.availableBalance =
        ((r.utxos.filter fun p => !p.2.spent && p.2.confirmed).map fun p => p.2.value).sum ∧
      r.availableBalance = 100 :=
  ⟨_, rfl,
    claim_C2 "a"
      [⟨some "x", some 5, [⟨"a", 100⟩], []⟩, ⟨some "y", none, [⟨"a", 20000⟩], []⟩] _ rfl,
    by rfl⟩

/-- C7: each output paying the address contributes its value to `incoming`
when the creating transaction has a `blockNumber` and to `incomingPending`
when it does not, and each input with a matching `coin.address` contributes
`coin.value` to `outgoing` or `outgoingPending` according to the consuming
transaction's own confirmation state. -/
theorem claim_C7 (address : String) (transactions : List Tx) (r : BalanceResult)
    (h : analyzeUTXOs address transactions = some r) :
    r.incoming =
      ((transactions.filter fun tx => tx.blockNumber.isSome).map
        fun tx => outsIncoming address tx.outputs).sum ∧
    r.incomingPending =
      ((transactions.filter fun tx => !tx.blockNumber.isSome).map
        fun tx => outsIncoming address tx.outputs).sum ∧
    r.outgoing =
      ((transactions.filter fun tx => tx.blockNumber.isSome).map
        fun tx => inpsOutgoing address tx.inputs).sum ∧
    r.outgoingPending =
      ((transactions.filter fun tx => !tx.blockNumber.isSome).map
        fun tx => inpsOutgoing address tx.inputs).sum := by
  obtain ⟨ks, hks, rfl⟩ := (analyzeUTXOs_eq_some address transactions r).mp h
  refine ⟨?_, ?_, ?_, ?_⟩ <;>
    simp [buildResult, foldl_incoming, foldl_incomingPending, foldl_outgoing,
      foldl_outgoingPending, initState]

/-- Witness for C7, instantiating Scenario B of the specification: a
transaction with `blockNumber` absent creating an output of value 20000
contributes 20000 to `incomingPending` and nothing to `availableBalance`. -/
theorem claim_C7_witness :
    ∃ r, analyzeUTXOs "a" [⟨some "x", none, [⟨"a", 20000⟩], []⟩] = some r ∧
      r.incomingPending =
        (([(⟨some "x", none, [⟨"a", 20000⟩], []⟩ : Tx)].filter
            fun tx => !tx.blockNumber.isSome).map
          fun tx => outsIncoming "a" tx.outputs).sum ∧
      r.incomingPending = 20000 ∧ r.availableBalance = 0 :=
  ⟨_, rfl, (claim_C7 "a" [⟨some "x", none, [⟨"a", 20000⟩], []⟩] _ rfl).2.1, by rfl, by rfl⟩

/-! ### The spent-set pass and the `spent` flag -/

theorem contains_iff_mem (l : List String) (k : String) : l.contains k = true ↔ k ∈ l := by
  simp

theorem mem_mapSet (k : String) (v : UtxoEntry) :
    ∀ (l : List (String × UtxoEntry)) (p : String × UtxoEntry),
      p ∈ mapSet k v l → p = (k, v) ∨ p ∈ l := by
  intro l
  induction l with
  | nil => intro p hp; exact Or.inl (by simpa [mapSet] using hp)
  | cons q rest ih =>
    intro p hp
    obtain ⟨k', v'⟩ := q
    by_cases h : k' = k
    · rw [mapSet, if_pos h] at hp
      rcases List.mem_cons.mp hp with rfl | hp'
      · exact Or.inl rfl
      · exact Or.inr (List.mem_cons_of_mem _ hp')
    · rw [mapSet, if_neg h] at hp
      rcases List.mem_cons.mp hp with rfl | hp'
      · exact Or.inr (List.mem_cons_self _ _)
      · rcases ih p hp' with h1 | h1
        · exact Or.inl h1
        · exact Or.inr (List.mem_cons_of_mem _ h1)

theorem spentInputs_mem (address : String) :
    ∀ (inps : List Input) (ks : List String), spentInputs address inps = some ks →
      ∀ k, k ∈ ks ↔
        ∃ inp ∈ inps, ∃ c p, inp.coin = some c ∧ c.address = address ∧
          inp.prevout = some p ∧ utxoKey p.hash p.index = k := by
  intro inps
  induction inps with
  | nil =>
    intro ks hks k
    simp [spentInputs] at hks
    subst hks
    simp
  | cons inp rest ih =>
    intro ks hks k
    cases hc : inp.coin with
    | none =>
      simp only [spentInputs, hc] at hks
      rw [ih ks hks k]
      constructor
      · rintro ⟨inp', hmem, hrest⟩
        exact ⟨inp', List.mem_cons_of_mem _ hmem, hrest⟩
      · rintro ⟨inp', hmem, c, p, hcoin, hrest⟩
        rcases List.mem_cons.mp hmem with rfl | hmem'
        · rw [hc] at hcoin; cases hcoin
        · exact ⟨inp', hmem', c, p, hcoin, hrest⟩
    | some c =>
      by_cases ha : c.address = address
      · cases hp : inp.prevout with
        | none => simp [spentInputs, hc, if_pos ha, hp] at hks
        | some p =>
          simp only [spentInputs, hc, if_pos ha, hp] at hks
          cases hrest : spentInputs address rest with
          | none => rw [hrest] at hks; simp at hks
          | some ks' =>
            rw [hrest] at hks
            simp only [Option.map_some'] at hks
            cases hks
            constructor
            · intro hk
              rcases List.mem_cons.mp hk with rfl | hk'
              · exact ⟨inp, List.mem_cons_self _ _, c, p, hc, ha, hp, rfl⟩
              · obtain ⟨inp', hmem, hrest'⟩ := (ih ks' hrest k).mp hk'
                exact ⟨inp', List.mem_cons_of_mem _ hmem, hrest'⟩
            · rintro ⟨inp', hmem, c', p', hcoin, ha', hprev, hkey⟩
              rcases List.mem_cons.mp hmem with rfl | hmem'
              · rw [hc] at hcoin
                cases hcoin
                rw [hp] at hprev
                cases hprev
                subst hkey
                exact List.mem_cons_self _ _
              · exact List.mem_cons_of_mem _
                  ((ih ks' hrest k).mpr ⟨inp', hmem', c', p', hcoin, ha', hprev, hkey⟩)
      · simp only [spentInputs, hc, if_neg ha] at hks
        rw [ih ks hks k]
        constructor
        · rintro ⟨inp', hmem, hrest⟩
          exact ⟨inp', List.mem_cons_of_mem _ hmem, hrest⟩
        · rintro ⟨inp', hmem, c', p', hcoin, ha', hrest⟩
          rcases List.mem_cons.mp hmem with rfl | hmem'
          · rw [hc] at hcoin; cases hcoin; exact absurd ha' ha
          · exact ⟨inp', hmem', c', p', hcoin, ha', hrest⟩

theorem spentPass_mem (address : String) :
    ∀ (txs : List Tx) (ks : List String), spentPass address txs = some ks →
      ∀ k, k ∈ ks ↔
        ∃ tx ∈ txs, ∃ inp ∈ tx.inputs, ∃ c p, inp.coin = some c ∧ c.address = address ∧
          inp.prevout = some p ∧ utxoKey p.hash p.index = k := by
  intro txs
  induction txs with
  | nil =>
    intro ks hks k
    simp [spentPass] at hks
    subst hks
    simp
  | cons tx rest ih =>
    intro ks hks k
    cases hinp : spentInputs address tx.inputs with
    | none => simp [spentPass, hinp] at hks
    | some ks₁ =>
      cases hrest : spentPass address rest with
      | none => simp [spentPass, hinp, hrest] at hks
      | some ks₂ =>
        simp only [spentPass, hinp, hrest, Option.some_bind, Option.map_some'] at hks
        cases hks
        rw [List.mem_append]
        constructor
        · rintro (hk | hk)
          · obtain ⟨inp, hmem, hrest'⟩ := (spentInputs_mem address tx.inputs ks₁ hinp k).mp hk
            exact ⟨tx, List.mem_cons_self _ _, inp, hmem, hrest'⟩
          · obtain ⟨tx', htx, hrest'⟩ := (ih ks₂ hrest k).mp hk
            exact ⟨tx', List.mem_cons_of_mem _ htx, hrest'⟩
        · rintro ⟨tx', htx, inp, hmem, hrest'⟩
          rcases List.mem_cons.mp htx with rfl | htx'
          · exact Or.inl ((spentInputs_mem address tx'.inputs ks₁ hinp k).mpr ⟨inp, hmem, hrest'⟩)
          · exact Or.inr ((ih ks₂ hrest k).mpr ⟨tx', htx', inp, hmem, hrest'⟩)

theorem processOutputs_cons_eq (address hs : String) (conf : Bool) (keys : List String)
    (st : AnalyzeState) (i : Nat) (o : Output) (rest : List Output) :
    processOutputs address hs conf keys st i (o :: rest) =
      processOutputs address hs conf keys
        (if o.address = address then
          { st with
              utxos :=
                mapSet (utxoKey hs i) ⟨o.value, keys.contains (utxoKey hs i), conf⟩ st.utxos,
              incoming := if conf then st.incoming + o.value else st.incoming,
              incomingPending :=
                if conf then st.incomingPending else st.incomingPending + o.value }
        else st) (i + 1) rest := rfl

theorem processOutputs_spent (address hs : String) (conf : Bool) (keys : List String) :
    ∀ (outs : List Output) (st : AnalyzeState) (i : Nat),
      (∀ p ∈ st.utxos, p.2.spent = keys.contains p.1) →
      ∀ p ∈ (processOutputs address hs conf keys st i outs).utxos,
        p.2.spent = keys.contains p.1 := by
  intro outs
  induction outs with
  | nil => intro st i hinv; simpa [processOutputs] using hinv
  | cons o rest ih =>
    intro st i hinv
    rw [processOutputs_cons_eq]
    apply ih _ (i + 1)
    by_cases h : o.address = address
    · rw [if_pos h]
      intro p hp
      rcases mem_mapSet _ _ _ p hp with rfl | hp'
      · rfl
      · exact hinv p hp'
    · rw [if_neg h]
      exact hinv

theorem foldl_spent (address : String) (keys : List String) :
    ∀ (txs : List Tx) (st : AnalyzeState),
      (∀ p ∈ st.utxos, p.2.spent = keys.contains p.1) →
      ∀ p ∈ (txs.foldl (processTx address keys) st).utxos,
        p.2.spent = keys.contains p.1 := by
  intro txs
  induction txs with
  | nil => intro st hinv; simpa using hinv
  | cons tx rest ih =>
    intro st hinv
    rw [List.foldl_cons]
    refine ih _ ?_
    intro p hp
    rw [processTx_utxos] at hp
    exact processOutputs_spent address (jsShow tx.hash) tx.blockNumber.isSome keys
      tx.outputs st 0 hinv p hp

/-- C3: an entry of the final UTXO set has `spent = true` exactly when some
transaction anywhere in the supplied list consumes that entry's Output
Reference (as the key `` `${prevout.hash}:${prevout.index}` ``) through an
input whose `coin.address` equals the tracked address. -/
theorem claim_C3 (address : String) (transactions : List Tx) (r : BalanceResult)
    (h : analyzeUTXOs address transactions = some r) :
    ∀ k e, (k, e) ∈ r.utxos →
      (e.spent = true ↔
        ∃ tx ∈ transactions, ∃ inp ∈ tx.inputs, ∃ c p,
          inp.coin = some c ∧ c.address = address ∧ inp.prevout = some p ∧
          utxoKey p.hash p.index = k) := by
  obtain ⟨ks, hks, rfl⟩ := (analyzeUTXOs_eq_some address transactions r).mp h
  intro k e hmem
  have hmem' : (k, e) ∈ (transactions.foldl (processTx address ks) initState).utxos := by
    simpa [buildResult] using hmem
  have hflag : e.spent = ks.contains k :=
    foldl_spent address ks transactions initState (by simp [initState]) (k, e) hmem'
  rw [hflag, contains_iff_mem]
  exact spentPass_mem address transactions ks hks k

/-- Witness for C3, instantiating Scenario C with the spender listed before
the creator: transaction X creates output (X,0) of value 5000, transaction Y
spends it; the entry stored under the key of (X,0) is marked spent. -/
theorem claim_C3_witness :
    ∃ r,
      analyzeUTXOs "a"
        [⟨some "Y", none, [], [⟨some ⟨"a", 5000⟩, some ⟨"X", 0⟩⟩]⟩,
         ⟨some "X", some 1, [⟨"a", 5000⟩], []⟩] = some r ∧
      (∀ k e, (k, e) ∈ r.utxos →
        (e.spent = true ↔
          ∃ tx ∈ [(⟨some "Y", none, [], [⟨some ⟨"a", 5000⟩, some ⟨"X", 0⟩⟩]⟩ : Tx),
                  ⟨some "X", some 1, [⟨"a", 5000⟩], []⟩],
            ∃ inp ∈ tx.inputs, ∃ c p,
              inp.coin = some c ∧ c.address = "a" ∧ inp.prevout = some p ∧
              utxoKey p.hash p.index = k)) ∧
      ∃ e, (utxoKey "X" 0, e) ∈ r.utxos ∧ e.spent = true :=
  ⟨_, rfl,
    claim_C3 "a"
      [⟨some "Y", none, [], [⟨some ⟨"a", 5000⟩, some ⟨"X", 0⟩⟩]⟩,
       ⟨some "X", some 1, [⟨"a", 5000⟩], []⟩] _ rfl,
    ⟨⟨5000, true, true⟩, by decide, rfl⟩⟩

/-! ### Totality of the reconstruction and irrelevance of coinless inputs -/

theorem spentInputs_isSome_iff (address : String) :
    ∀ (inps : List Input),
      (spentInputs address inps).isSome ↔
        ∀ inp ∈ inps, ∀ c, inp.coin = some c → c.address = address →
          inp.prevout.isSome := by
  intro inps
  induction inps with
  | nil => simp [spentInputs]
  | cons inp rest ih =>
    cases hc : inp.coin with
    | none =>
      simp only [spentInputs, hc]
      rw [ih]
      constructor
      · intro h inp' hmem c hcoin ha
        rcases List.mem_cons.mp hmem with rfl | hmem'
        · rw [hc] at hcoin; cases hcoin
        · exact h inp' hmem' c hcoin ha
      · intro h inp' hmem c hcoin ha
        exact h inp' (List.mem_cons_of_mem _ hmem) c hcoin ha
    | some c =>
      by_cases ha : c.address = address
      · cases hp : inp.prevout with
        | none =>
          simp only [spentInputs, hc, if_pos ha, hp]
          constructor
          · intro h; simp at h
          · intro h
            exfalso
            have := h inp (List.mem_cons_self _ _) c hc ha
            rw [hp] at this
            simp at this
        | some p =>
          simp only [spentInputs, hc, if_pos ha, hp, Option.isSome_map']
          rw [ih]
          constructor
          · intro h inp' hmem c' hcoin ha'
            rcases List.mem_cons.mp hmem with rfl | hmem'
            · rw [hp]; rfl
            · exact h inp' hmem' c' hcoin ha'
          · intro h inp' hmem c' hcoin ha'
            exact h inp' (List.mem_cons_of_mem _ hmem) c' hcoin ha'
      · simp only [spentInputs, hc, if_neg ha]
        rw [ih]
        constructor
        · intro h inp' hmem c' hcoin ha'
          rcases List.mem_cons.mp hmem with rfl | hmem'
          · rw [hc] at hcoin; cases hcoin; exact absurd ha' ha
          · exact h inp' hmem' c' hcoin ha'
        · intro h inp' hmem c' hcoin ha'
          exact h inp' (List.mem_cons_of_mem _ hmem) c' hcoin ha'

theorem spentPass_isSome_iff (address : String) :
    ∀ (txs : List Tx),
      (spentPass address txs).isSome ↔
        ∀ tx ∈ txs, ∀ inp ∈ tx.inputs, ∀ c, inp.coin = some c → c.address = address →
          inp.prevout.isSome := by
  intro txs
  induction txs with
  | nil => simp [spentPass]
  | cons tx rest ih =>
    cases hinp : spentInputs address tx.inputs with
    | none =>
      simp only [spentPass, hinp, Option.none_bind]
      constructor
      · intro h; simp at h
      · intro h
        exfalso
        have : (spentInputs address tx.inputs).isSome :=
          (spentInputs_isSome_iff address tx.inputs).mpr
            (fun inp hmem c hcoin ha => h tx (List.mem_cons_self _ _) inp hmem c hcoin ha)
        rw [hinp] at this
        simp at this
    | some ks₁ =>
      simp only [spentPass, hinp, Option.some_bind, Option.isSome_map']
      rw [ih]
      constructor
      · intro h tx' hmem inp hinp' c hcoin ha
        rcases List.mem_cons.mp hmem with rfl | hmem'
        · have : (spentInputs address tx'.inputs).isSome := by rw [hinp]; rfl
          exact (spentInputs_isSome_iff address tx'.inputs).mp this inp hinp' c hcoin ha
        · exact h tx' hmem' inp hinp' c hcoin ha
      · intro h tx' hmem inp hinp' c hcoin ha
        exact h tx' (List.mem_cons_of_mem _ hmem) inp hinp' c hcoin ha

theorem spentInputs_filter_coin (address : String) :
    ∀ (inps : List Input),
      spentInputs address (inps.filter fun inp => inp.coin.isSome) =
        spentInputs address inps := by
  intro inps
  induction inps with
  | nil => simp
  | cons inp rest ih =>
    cases hc : inp.coin with
    | none => simp [List.filter_cons, hc, spentInputs, ih]
    | some c => simp [List.filter_cons, hc, spentInputs, ih]

theorem processInputs_filter_coin (address : String) (conf : Bool) :
    ∀ (inps : List Input) (st : AnalyzeState),
      processInputs address conf st (inps.filter fun inp => inp.coin.isSome) =
        processInputs address conf st inps := by
  intro inps
  induction inps with
  | nil => intro st; simp
  | cons inp rest ih =>
    intro st
    cases hc : inp.coin with
    | none => simp [List.filter_cons, hc, processInputs, ih]
    | some c => simp [List.filter_cons, hc, processInputs, ih]

theorem processTx_filter_coin (address : String) (keys : List String) (st : AnalyzeState)
    (tx : Tx) :
    processTx address keys st
        { tx with inputs := tx.inputs.filter fun inp => inp.coin.isSome } =
      processTx address keys st tx := by
  unfold processTx
  exact processInputs_filter_coin address tx.blockNumber.isSome tx.inputs _

theorem spentPass_filter_coin (address : String) :
    ∀ (txs : List Tx),
      spentPass address
          (txs.map fun tx => { tx with inputs := tx.inputs.filter fun inp => inp.coin.isSome }) =
        spentPass address txs := by
  intro txs
  induction txs with
  | nil => rfl
  | cons tx rest ih => simp [spentPass, spentInputs_filter_coin, ih]

theorem foldl_filter_coin (address : String) (keys : List String) :
    ∀ (txs : List Tx) (st : AnalyzeState),
      ((txs.map fun tx =>
          { tx with inputs := tx.inputs.filter fun inp => inp.coin.isSome }).foldl
        (processTx address keys) st) =
        txs.foldl (processTx address keys) st := by
  intro txs
  induction txs with
  | nil => intro st; rfl
  | cons tx rest ih =>
    intro st
    rw [List.map_cons, List.foldl_cons, List.foldl_cons, processTx_filter_coin, ih]

/-- C9: the reconstruction returns a Balance Snapshot exactly when every
input whose `coin.address` matches the tracked address carries a `prevout`
object (the code dereferences `input.prevout` unconditionally there), and an
input whose `coin` field is absent is irrelevant: removing all such inputs
leaves the result unchanged, whatever their `prevout` says. -/
theorem claim_C9 (address : String) (transactions : List Tx) :
    ((analyzeUTXOs address transactions).isSome ↔
      ∀ tx ∈ transactions, ∀ inp ∈ tx.inputs, ∀ c,
        inp.coin = some c → c.address = address → inp.prevout.isSome) ∧
    analyzeUTXOs address transactions =
      analyzeUTXOs address
        (transactions.map fun tx =>
          { tx with inputs := tx.inputs.filter fun inp => inp.coin.isSome }) := by
  constructor
  · rw [analyzeUTXOs, Option.isSome_map']
    exact spentPass_isSome_iff address transactions
  · unfold analyzeUTXOs
    rw [spentPass_filter_coin]
    cases hks : spentPass address transactions with
    | none => rfl
    | some ks =>
      simp only [Option.map_some', Option.some.injEq]
      unfold buildResult
      rw [foldl_filter_coin]

/-! ### Missing-hash records: no validation, JS string coercion instead -/

theorem processTx_jsShow_hash (address : String) (keys : List String) (st : AnalyzeState)
    (tx : Tx) :
    processTx address keys st { tx with hash := some (jsShow tx.hash) } =
      processTx address keys st tx := rfl

theorem spentPass_jsShow_hash (address : String) :
    ∀ (txs : List Tx),
      spentPass address (txs.map fun tx => { tx with hash := some (jsShow tx.hash) }) =
        spentPass address txs := by
  intro txs
  induction txs with
  | nil => rfl
  | cons tx rest ih => simp [spentPass, ih]

theorem foldl_jsShow_hash (address : String) (keys : List String) :
    ∀ (txs : List Tx) (st : AnalyzeState),
      ((txs.map fun tx => { tx with hash := some (jsShow tx.hash) }).foldl
        (processTx address keys) st) =
        txs.foldl (processTx address keys) st := by
  intro txs
  induction txs with
  | nil => intro st; rfl
  | cons tx rest ih =>
    intro st
    rw [List.map_cons, List.foldl_cons, List.foldl_cons, processTx_jsShow_hash, ih]

/-- C8 (amended): the reconstruction performs no validation of required
fields.  A record whose `hash` is absent is not rejected: the whole analysis
behaves exactly as if the hash were the literal string "undefined" (the JS
template-literal coercion), so the outputs of such a record are silently
classified under keys `undefined:i` instead of aborting with a Validation
error. -/
theorem claim_C8 (address : String) (transactions : List Tx) :
    analyzeUTXOs address transactions =
      analyzeUTXOs address
        (transactions.map fun tx => { tx with hash := some (jsShow tx.hash) }) := by
  unfold analyzeUTXOs
  rw [spentPass_jsShow_hash]
  cases hks : spentPass address transactions with
  | none => rfl
  | some ks =>
    simp only [Option.map_some', Option.some.injEq]
    unfold buildResult
    rw [foldl_jsShow_hash]

/-- Counterexample to C8 as stated: a transaction record missing the
required `hash` field does not make the reconstruction fail with a
Validation error — `analyzeUTXOs` returns a full Balance Snapshot, silently
classifying the output under the coerced key "undefined:0". -/
theorem claim_C8_counterexample :
    (analyzeUTXOs "a" [⟨none, some 1, [⟨"a", 100⟩], []⟩]).isSome = true ∧
    ∃ r, analyzeUTXOs "a" [⟨none, some 1, [⟨"a", 100⟩], []⟩] = some r ∧
      ∃ e, (("undefined:0" : String), e) ∈ r.utxos ∧ e.value = 100 ∧
        r.availableBalance = 100 :=
  ⟨rfl, _, rfl, ⟨100, false, true⟩, by decide, rfl, rfl⟩

/-! ### Injectivity of the string key `hash ++ ":" ++ toString index` -/

theorem digitsVal_append_singleton (l : List Char) (d : Char) :
    digitsVal (l ++ [d]) = 10 * digitsVal l + (d.toNat - 48) := by
  simp [digitsVal, List.foldl_append]

theorem digitChar_toNat (m : Nat) (h : m < 10) : (Nat.digitChar m).toNat = 48 + m := by
  interval_cases m <;> decide

theorem toDigitsCore_spec :
    ∀ (f : Nat), 0 < f → ∀ (n : Nat) (ds : List Char), n < 10 ^ f →
      ∃ l, Nat.toDigitsCore 10 f n ds = l ++ ds ∧ l ≠ [] ∧
        (∀ c ∈ l, 48 ≤ c.toNat ∧ c.toNat < 58) ∧ digitsVal l = n := by
  intro f
  induction f with
  | zero => intro h; exact absurd h (Nat.lt_irrefl 0)
  | succ f ih =>
    intro _ n ds hn
    by_cases h0 : n / 10 = 0
    · have hlt : n < 10 := by
        rcases Nat.lt_or_ge n 10 with h | h
        · exact h
        · exfalso; have := Nat.div_le_div_right (c := 10) h; simp at this; omega
      refine ⟨[Nat.digitChar (n % 10)], ?_, by simp, ?_, ?_⟩
      · simp [Nat.toDigitsCore, h0]
      · intro c hc
        rcases List.mem_singleton.mp hc with rfl
        rw [digitChar_toNat (n % 10) (Nat.mod_lt _ (by norm_num))]
        omega
      · have : digitsVal [Nat.digitChar (n % 10)] =
            (Nat.digitChar (n % 10)).toNat - 48 := by
          simp [digitsVal]
        rw [this, digitChar_toNat (n % 10) (Nat.mod_lt _ (by norm_num))]
        omega
    · have hf : 0 < f := by
        rcases Nat.eq_zero_or_pos f with rfl | hf
        · exfalso; apply h0; exact Nat.div_eq_of_lt (by simpa using hn)
        · exact hf
      have hn' : n / 10 < 10 ^ f := by
        rw [Nat.div_lt_iff_lt_mul (by norm_num)]
        calc n < 10 ^ (f + 1) := hn
          _ = 10 ^ f * 10 := by rw [pow_succ]
      obtain ⟨l', hl'eq, hl'ne, hl'chars, hl'val⟩ :=
        ih hf (n / 10) (Nat.digitChar (n % 10) :: ds) hn'
      refine ⟨l' ++ [Nat.digitChar (n % 10)], ?_, by simp, ?_, ?_⟩
      · rw [show Nat.toDigitsCore 10 (f + 1) n ds =
            Nat.toDigitsCore 10 f (n / 10) (Nat.digitChar (n % 10) :: ds) by
          simp [Nat.toDigitsCore, h0]]
        rw [hl'eq, List.append_assoc, List.singleton_append]
      · intro c hc
        rcases List.mem_append.mp hc with hc' | hc'
        · exact hl'chars c hc'
        · rcases List.mem_singleton.mp hc' with rfl
          rw [digitChar_toNat (n % 10) (Nat.mod_lt _ (by norm_num))]
          omega
      · rw [digitsVal_append_singleton, hl'val,
          digitChar_toNat (n % 10) (Nat.mod_lt _ (by norm_num))]
        omega

theorem toDigits_10_spec (n : Nat) :
    (∀ c ∈ Nat.toDigits 10 n, 48 ≤ c.toNat ∧ c.toNat < 58) ∧
      digitsVal (Nat.toDigits 10 n) = n := by
  have hn : n < 10 ^ (n + 1) := by
    calc n < 2 ^ n := Nat.lt_two_pow n
      _ ≤ 2 ^ (n + 1) := Nat.pow_le_pow_right (by norm_num) (by omega)
      _ ≤ 10 ^ (n + 1) := Nat.pow_le_pow_left (by norm_num) _
  obtain ⟨l, hleq, _, hchars, hval⟩ := toDigitsCore_spec (n + 1) (by omega) n [] hn
  unfold Nat.toDigits
  rw [hleq, List.append_nil]
  exact ⟨hchars, hval⟩

theorem toString_nat_data (n : Nat) : (toString n).data = Nat.toDigits 10 n := rfl

theorem toString_nat_inj (n₁ n₂ : Nat) (h : toString n₁ = toString n₂) : n₁ = n₂ := by
  have hdata : Nat.toDigits 10 n₁ = Nat.toDigits 10 n₂ := by
    rw [← toString_nat_data, ← toString_nat_data, h]
  have h1 := (toDigits_10_spec n₁).2
  have h2 := (toDigits_10_spec n₂).2
  rw [← h1, ← h2, hdata]

theorem colon_not_mem_toString_nat (n : Nat) : ':' ∉ (toString n).data := by
  intro hmem
  rw [toString_nat_data] at hmem
  have hbound := (toDigits_10_spec n).1 ':' hmem
  have hco : (':' : Char).toNat = 58 := by decide
  omega

theorem append_colon_inj :
    ∀ (l₁ l₂ r₁ r₂ : List Char), ':' ∉ r₁ → ':' ∉ r₂ →
      l₁ ++ ':' :: r₁ = l₂ ++ ':' :: r₂ → l₁ = l₂ ∧ r₁ = r₂ := by
  intro l₁
  induction l₁ with
  | nil =>
    intro l₂ r₁ r₂ h1 h2 heq
    cases l₂ with
    | nil =>
      simp only [List.nil_append, List.cons.injEq] at heq
      exact ⟨rfl, heq.2⟩
    | cons b l₂' =>
      simp only [List.nil_append, List.cons_append, List.cons.injEq] at heq
      exfalso
      apply h1
      rw [heq.2]
      exact List.mem_append_right _ (List.mem_cons_self _ _)
  | cons a l₁' ih =>
    intro l₂ r₁ r₂ h1 h2 heq
    cases l₂ with
    | nil =>
      simp only [List.nil_append, List.cons_append, List.cons.injEq] at heq
      exfalso
      apply h2
      rw [← heq.2]
      exact List.mem_append_right _ (List.mem_cons_self _ _)
    | cons b l₂' =>
      simp only [List.cons_append, List.cons.injEq] at heq
      obtain ⟨rfl, heq'⟩ := heq
      obtain ⟨h3, h4⟩ := ih l₂' r₁ r₂ h1 h2 heq'
      exact ⟨by rw [h3], h4⟩

theorem utxoKey_data (h : String) (i : Nat) :
    (utxoKey h i).data = h.data ++ ':' :: (toString i).data := by
  unfold utxoKey
  rw [String.data_append, String.data_append]
  have : (":" : String).data = [':'] := rfl
  rw [this, List.append_assoc, List.singleton_append]

theorem utxoKey_inj (h₁ h₂ : String) (i₁ i₂ : Nat)
    (heq : utxoKey h₁ i₁ = utxoKey h₂ i₂) : h₁ = h₂ ∧ i₁ = i₂ := by
  have hdata := congrArg String.data heq
  rw [utxoKey_data, utxoKey_data] at hdata
  obtain ⟨hh, hd⟩ := append_colon_inj h₁.data h₂.data (toString i₁).data (toString i₂).data
    (colon_not_mem_toString_nat i₁) (colon_not_mem_toString_nat i₂) hdata
  exact ⟨String.ext_iff.mpr hh, toString_nat_inj i₁ i₂ (String.ext_iff.mpr hd)⟩

/-! ### Uniqueness of keys in the UTXO map -/

theorem mem_keys_mapSet (k : String) (v : UtxoEntry) (l : List (String × UtxoEntry))
    (x : String) (hx : x ∈ (mapSet k v l).map Prod.fst) :
    x = k ∨ x ∈ l.map Prod.fst := by
  obtain ⟨p, hp, rfl⟩ := List.mem_map.mp hx
  rcases mem_mapSet k v l p hp with rfl | hp'
  · exact Or.inl rfl
  · exact Or.inr (List.mem_map.mpr ⟨p, hp', rfl⟩)

theorem mapSet_keys_nodup (k : String) (v : UtxoEntry) :
    ∀ (l : List (String × UtxoEntry)), (l.map Prod.fst).Nodup →
      ((mapSet k v l).map Prod.fst).Nodup := by
  intro l
  induction l with
  | nil => intro _; simp [mapSet]
  | cons q rest ih =>
    intro hnd
    obtain ⟨k', v'⟩ := q
    rw [List.map_cons] at hnd
    rcases List.nodup_cons.mp hnd with ⟨hk', hrest⟩
    by_cases h : k' = k
    · subst h
      rw [mapSet, if_pos rfl, List.map_cons]
      exact List.nodup_cons.mpr ⟨hk', hrest⟩
    · rw [mapSet, if_neg h, List.map_cons]
      refine List.nodup_cons.mpr ⟨?_, ih hrest⟩
      intro hmem
      rcases mem_keys_mapSet k v rest k' hmem with rfl | hmem'
      · exact h rfl
      · exact hk' hmem'

theorem processOutputs_keys_nodup (address hs : String) (conf : Bool) (keys : List String) :
    ∀ (outs : List Output) (st : AnalyzeState) (i : Nat),
      (st.utxos.map Prod.fst).Nodup →
      (((processOutputs address hs conf keys st i outs).utxos).map Prod.fst).Nodup := by
  intro outs
  induction outs with
  | nil => intro st i hnd; simpa [processOutputs] using hnd
  | cons o rest ih =>
    intro st i hnd
    rw [processOutputs_cons_eq]
    apply ih _ (i + 1)
    by_cases h : o.address = address
    · rw [if_pos h]
      exact mapSet_keys_nodup _ _ _ hnd
    · rw [if_neg h]
      exact hnd

theorem foldl_keys_nodup (address : String) (keys : List String) :
    ∀ (txs : List Tx) (st : AnalyzeState),
      (st.utxos.map Prod.fst).Nodup →
      (((txs.foldl (processTx address keys) st).utxos).map Prod.fst).Nodup := by
  intro txs
  induction txs with
  | nil => intro st hnd; simpa using hnd
  | cons tx rest ih =>
    intro st hnd
    rw [List.foldl_cons]
    apply ih
    rw [processTx_utxos]
    exact processOutputs_keys_nodup address (jsShow tx.hash) tx.blockNumber.isSome keys
      tx.outputs st 0 hnd

/-- C6: every Output Reference appears at most once in the resulting UTXO
set.  The map keyed by the concatenation `` `${hash}:${index}` `` never holds
two entries for one key, and — because the decimal rendering of the index
contains no colon — the concatenated key is injective in the pair
`(hash, index)`, so two distinct Output References never collapse to the
same entry. -/
theorem claim_C6 (address : String) (transactions : List Tx) (r : BalanceResult)
    (h : analyzeUTXOs address transactions = some r) :
    (r.utxos.map Prod.fst).Nodup ∧
    ∀ h₁ i₁ h₂ i₂, utxoKey h₁ i₁ = utxoKey h₂ i₂ → h₁ = h₂ ∧ i₁ = i₂ := by
  obtain ⟨ks, hks, rfl⟩ := (analyzeUTXOs_eq_some address transactions r).mp h
  constructor
  · have : ((buildResult address transactions ks).utxos) =
        (transactions.foldl (processTx address ks) initState).utxos := by
      simp [buildResult]
    rw [this]
    exact foldl_keys_nodup address ks transactions initState (by simp [initState])
  · exact fun h₁ i₁ h₂ i₂ => utxoKey_inj h₁ h₂ i₁ i₂

/-- Witness for C6: a transaction paying the tracked address twice produces
two distinct keys, and the key-injectivity holds. -/
theorem claim_C6_witness :
    ∃ r, analyzeUTXOs "a" [⟨some "x", some 1, [⟨"a", 1⟩, ⟨"a", 2⟩], []⟩] = some r ∧
      (r.utxos.map Prod.fst).Nodup ∧
      ∀ h₁ i₁ h₂ i₂, utxoKey h₁ i₁ = utxoKey h₂ i₂ → h₁ = h₂ ∧ i₁ = i₂ := by
  obtain ⟨hn, hinj⟩ :=
    claim_C6 "a" [⟨some "x", some 1, [⟨"a", 1⟩, ⟨"a", 2⟩], []⟩] _ rfl
  exact ⟨_, rfl, hn, hinj⟩

/-! ### Order-independence of the classification -/

theorem mapSet_of_not_mem_keys (k : String) (v : UtxoEntry) :
    ∀ (l : List (String × UtxoEntry)), k ∉ l.map Prod.fst →
      mapSet k v l = l ++ [(k, v)] := by
  intro l
  induction l with
  | nil => intro _; rfl
  | cons q rest ih =>
    intro hk
    obtain ⟨k', v'⟩ := q
    rw [List.map_cons] at hk
    rw [mapSet, if_neg ?_, ih ?_, List.cons_append]
    · intro hmem; exact hk (List.mem_cons_of_mem _ hmem)
    · intro heq; exact hk (by rw [heq]; exact List.mem_cons_self _ _)

theorem mem_keys_outEntries (address hs : String) (conf : Bool) (keys : List String) :
    ∀ (outs : List Output) (i : Nat) (x : String),
      x ∈ (outEntries address hs conf keys i outs).map Prod.fst →
      ∃ j, i ≤ j ∧ x = utxoKey hs j := by
  intro outs
  induction outs with
  | nil => intro i x hx; simp [outEntries] at hx
  | cons o rest ih =>
    intro i x hx
    by_cases h : o.address = address
    · rw [outEntries, if_pos h, List.map_cons] at hx
      rcases List.mem_cons.mp hx with rfl | hx'
      · exact ⟨i, Nat.le_refl i, rfl⟩
      · obtain ⟨j, hj, hx''⟩ := ih (i + 1) x hx'
        exact ⟨j, by omega, hx''⟩
    · rw [outEntries, if_neg h] at hx
      obtain ⟨j, hj, hx''⟩ := ih (i + 1) x hx
      exact ⟨j, by omega, hx''⟩

theorem processOutputs_utxos_eq (address hs : String) (conf : Bool) (keys : List String) :
    ∀ (outs : List Output) (st : AnalyzeState) (i : Nat),
      (∀ x ∈ (outEntries address hs conf keys i outs).map Prod.fst,
        x ∉ st.utxos.map Prod.fst) →
      (processOutputs address hs conf keys st i outs).utxos =
        st.utxos ++ outEntries address hs conf keys i outs := by
  intro outs
  induction outs with
  | nil => intro st i _; simp [processOutputs, outEntries]
  | cons o rest ih =>
    intro st i hfresh
    rw [processOutputs_cons_eq]
    by_cases h : o.address = address
    · rw [if_pos h]
      have hkey : utxoKey hs i ∉ st.utxos.map Prod.fst := by
        apply hfresh
        rw [outEntries, if_pos h, List.map_cons]
        exact List.mem_cons_self _ _
      have hset := mapSet_of_not_mem_keys (utxoKey hs i)
        ⟨o.value, keys.contains (utxoKey hs i), conf⟩ st.utxos hkey
      rw [ih _ (i + 1) ?_]
      · simp only [hset]
        rw [outEntries, if_pos h, List.append_assoc, List.singleton_append]
      · intro x hx
        simp only [hset, List.map_append, List.mem_append]
        rintro (hx' | hx')
        · apply hfresh x ?_ hx'
          rw [outEntries, if_pos h, List.map_cons]
          exact List.mem_cons_of_mem _ hx
        · obtain ⟨j, hj, rfl⟩ := mem_keys_outEntries address hs conf keys rest (i + 1) x hx
          simp only [List.map_cons, List.mem_cons] at hx'
          rcases hx' with hx'' | hx''
          · obtain ⟨-, hji⟩ := utxoKey_inj hs hs j i hx''
            omega
          · simp at hx''
    · rw [if_neg h]
      rw [ih _ (i + 1) ?_, outEntries, if_neg h]
      intro x hx
      apply hfresh
      rw [outEntries, if_neg h]
      exact hx

theorem outEntries_keys_nodup (address hs : String) (conf : Bool) (keys : List String) :
    ∀ (outs : List Output) (i : Nat),
      ((outEntries address hs conf keys i outs).map Prod.fst).Nodup := by
  intro outs
  induction outs with
  | nil => intro i; simp [outEntries]
  | cons o rest ih =>
    intro i
    by_cases h : o.address = address
    · rw [outEntries, if_pos h, List.map_cons]
      refine List.nodup_cons.mpr ⟨?_, ih (i + 1)⟩
      intro hmem
      obtain ⟨j, hj, heq⟩ := mem_keys_outEntries address hs conf keys rest (i + 1) _ hmem
      obtain ⟨-, hji⟩ := utxoKey_inj hs hs i j heq
      omega
    · rw [outEntries, if_neg h]
      exact ih (i + 1)

theorem mem_keys_txEntries (address : String) (keys : List String) (tx : Tx) (x : String)
    (hx : x ∈ (txEntries address keys tx).map Prod.fst) :
    ∃ j, x = utxoKey (hashStr tx) j := by
  obtain ⟨j, -, hxeq⟩ := mem_keys_outEntries address (hashStr tx) tx.blockNumber.isSome keys
    tx.outputs 0 x hx
  exact ⟨j, hxeq⟩

theorem foldl_utxos_eq (address : String) (keys : List String) :
    ∀ (txs : List Tx) (st : AnalyzeState),
      ((st.utxos.map Prod.fst) ++
        ((txs.map (txEntries address keys)).flatten.map Prod.fst)).Nodup →
      (txs.foldl (processTx address keys) st).utxos =
        st.utxos ++ (txs.map (txEntries address keys)).flatten := by
  intro txs
  induction txs with
  | nil => intro st _; simp
  | cons tx rest ih =>
    intro st hnd
    rw [List.map_cons, List.flatten_cons, List.map_append] at hnd
    obtain ⟨hnd_st, hnd_rest, hdisj⟩ := List.nodup_append.mp hnd
    have hstep : (processTx address keys st tx).utxos =
        st.utxos ++ txEntries address keys tx := by
      rw [processTx_utxos]
      apply processOutputs_utxos_eq
      intro x hx hst
      exact hdisj hst (List.mem_append_left _ hx)
    rw [List.foldl_cons]
    rw [ih (processTx address keys st tx) ?_, hstep, List.map_cons, List.flatten_cons,
      List.append_assoc]
    rw [hstep, List.map_append, List.append_assoc]
    exact hnd

theorem txEntries_flatten_keys_nodup (address : String) (keys : List String) :
    ∀ (txs : List Tx), (txs.map hashStr).Nodup →
      (((txs.map (txEntries address keys)).flatten).map Prod.fst).Nodup := by
  intro txs
  induction txs with
  | nil => intro _; simp
  | cons tx rest ih =>
    intro hnd
    rw [List.map_cons] at hnd
    obtain ⟨hhead, hrest⟩ := List.nodup_cons.mp hnd
    rw [List.map_cons, List.flatten_cons, List.map_append]
    refine List.nodup_append.mpr ⟨?_, ih hrest, ?_⟩
    · exact outEntries_keys_nodup address (hashStr tx) tx.blockNumber.isSome keys
        tx.outputs 0
    · intro x hx hx'
      obtain ⟨j, rfl⟩ := mem_keys_txEntries address keys tx x hx
      obtain ⟨p, hp, hpx⟩ := List.mem_map.mp hx'
      obtain ⟨l, hl, hpl⟩ := List.mem_flatten.mp hp
      obtain ⟨tx', htx', rfl⟩ := List.mem_map.mp hl
      obtain ⟨j', heq⟩ := mem_keys_txEntries address keys tx' p.1
        (List.mem_map.mpr ⟨p, hpl, rfl⟩)
      rw [hpx] at heq
      obtain ⟨hhash, -⟩ := utxoKey_inj (hashStr tx) (hashStr tx') j j' heq
      exact hhead (List.mem_map.mpr ⟨tx', htx', hhash.symm⟩)

theorem outEntries_congr (address hs : String) (conf : Bool) (keys₁ keys₂ : List String)
    (h : ∀ k, keys₁.contains k = keys₂.contains k) :
    ∀ (outs : List Output) (i : Nat),
      outEntries address hs conf keys₁ i outs = outEntries address hs conf keys₂ i outs := by
  intro outs
  induction outs with
  | nil => intro i; rfl
  | cons o rest ih =>
    intro i
    by_cases ho : o.address = address
    · rw [outEntries, outEntries, if_pos ho, if_pos ho, h (utxoKey hs i), ih (i + 1)]
    · rw [outEntries, outEntries, if_neg ho, if_neg ho, ih (i + 1)]

theorem txEntries_congr (address : String) (keys₁ keys₂ : List String)
    (h : ∀ k, keys₁.contains k = keys₂.contains k) (tx : Tx) :
    txEntries address keys₁ tx = txEntries address keys₂ tx :=
  outEntries_congr address (hashStr tx) tx.blockNumber.isSome keys₁ keys₂ h tx.outputs 0

theorem bool_eq_of_iff (a b : Bool) (h : a = true ↔ b = true) : a = b := by
  cases a <;> cases b <;> simp_all

theorem spentPass_contains_perm (address : String) (txs txs' : List Tx)
    (hperm : txs.Perm txs') (ks ks' : List String)
    (h : spentPass address txs = some ks) (h' : spentPass address txs' = some ks') :
    ∀ k, ks.contains k = ks'.contains k := by
  intro k
  apply bool_eq_of_iff
  rw [contains_iff_mem, contains_iff_mem, spentPass_mem address txs ks h k,
    spentPass_mem address txs' ks' h' k]
  constructor
  · rintro ⟨tx, htx, hrest⟩
    exact ⟨tx, hperm.mem_iff.mp htx, hrest⟩
  · rintro ⟨tx, htx, hrest⟩
    exact ⟨tx, hperm.mem_iff.mpr htx, hrest⟩

/-- The utxo map of a completed analysis, in closed form, when the
(coerced) transaction hashes are pairwise distinct. -/
theorem buildResult_utxos_eq (address : String) (txs : List Tx) (ks : List String)
    (hnodup : (txs.map hashStr).Nodup) :
    (buildResult address txs ks).utxos = (txs.map (txEntries address ks)).flatten := by
  simp only [buildResult]
  rw [foldl_utxos_eq address ks txs initState ?_]
  · simp [initState]
  · have := txEntries_flatten_keys_nodup address ks txs hnodup
    simpa [initState] using this

/-- C5 (amended): when the (coerced) transaction hashes are pairwise
distinct, permuting the input transaction sequence does not change the
final classification: the four aggregates and `availableBalance` agree, and
the UTXO set and the unspent list agree as unordered collections
(permutations of each other). -/
theorem claim_C5 (address : String) (transactions transactions' : List Tx)
    (hperm : transactions.Perm transactions')
    (hnodup : (transactions.map hashStr).Nodup)
    (r r' : BalanceResult)
    (h : analyzeUTXOs address transactions = some r)
    (h' : analyzeUTXOs address transactions' = some r') :
    r.incoming = r'.incoming ∧ r.outgoing = r'.outgoing ∧
    r.incomingPending = r'.incomingPending ∧ r.outgoingPending = r'.outgoingPending ∧
    r.availableBalance = r'.availableBalance ∧
    r.utxos.Perm r'.utxos ∧ r.unspentUTXOs.Perm r'.unspentUTXOs := by
  obtain ⟨ks, hks, rfl⟩ := (analyzeUTXOs_eq_some address transactions r).mp h
  obtain ⟨ks', hks', rfl⟩ := (analyzeUTXOs_eq_some address transactions' r').mp h'
  have hnodup' : (transactions'.map hashStr).Nodup :=
    (hperm.map hashStr).nodup_iff.mp hnodup
  have hcont : ∀ k, ks'.contains k = ks.contains k :=
    spentPass_contains_perm address transactions' transactions hperm.symm ks' ks hks' hks
  have hU : (buildResult address transactions ks).utxos =
      (transactions.map (txEntries address ks)).flatten :=
    buildResult_utxos_eq address transactions ks hnodup
  have hU' : (buildResult address transactions' ks').utxos =
      (transactions'.map (txEntries address ks)).flatten := by
    rw [buildResult_utxos_eq address transactions' ks' hnodup']
    have hfun : txEntries address ks' = txEntries address ks :=
      funext fun tx => txEntries_congr address ks' ks hcont tx
    rw [hfun]
  have hUperm : ((buildResult address transactions ks).utxos).Perm
      ((buildResult address transactions' ks').utxos) := by
    rw [hU, hU']
    exact (hperm.map (txEntries address ks)).flatten
  refine ⟨?_, ?_, ?_, ?_, ?_, hUperm, ?_⟩
  · have h1 : (buildResult address transactions ks).incoming =
        ((transactions.filter fun tx => tx.blockNumber.isSome).map
          fun tx => outsIncoming address tx.outputs).sum := by
      simp [buildResult, foldl_incoming, initState]
    have h2 : (buildResult address transactions' ks').incoming =
        ((transactions'.filter fun tx => tx.blockNumber.isSome).map
          fun tx => outsIncoming address tx.outputs).sum := by
      simp [buildResult, foldl_incoming, initState]
    rw [h1, h2]
    exact ((hperm.filter _).map _).sum_eq
  · have h1 : (buildResult address transactions ks).outgoing =
        ((transactions.filter fun tx => tx.blockNumber.isSome).map
          fun tx => inpsOutgoing address tx.inputs).sum := by
      simp [buildResult, foldl_outgoing, initState]
    have h2 : (buildResult address transactions' ks').outgoing =
        ((transactions'.filter fun tx => tx.blockNumber.isSome).map
          fun tx => inpsOutgoing address tx.inputs).sum := by
      simp [buildResult, foldl_outgoing, initState]
    rw [h1, h2]
    exact ((hperm.filter _).map _).sum_eq
  · have h1 : (buildResult address transactions ks).incomingPending =
        ((transactions.filter fun tx => !tx.blockNumber.isSome).map
          fun tx => outsIncoming address tx.outputs).sum := by
      simp [buildResult, foldl_incomingPending, initState]
    have h2 : (buildResult address transactions' ks').incomingPending =
        ((transactions'.filter fun tx => !tx.blockNumber.isSome).map
          fun tx => outsIncoming address tx.outputs).sum := by
      simp [buildResult, foldl_incomingPending, initState]
    rw [h1, h2]
    exact ((hperm.filter _).map _).sum_eq
  · have h1 : (buildResult address transactions ks).outgoingPending =
        ((transactions.filter fun tx => !tx.blockNumber.isSome).map
          fun tx => inpsOutgoing address tx.inputs).sum := by
      simp [buildResult, foldl_outgoingPending, initState]
    have h2 : (buildResult address transactions' ks').outgoingPending =
        ((transactions'.filter fun tx => !tx.blockNumber.isSome).map
          fun tx => inpsOutgoing address tx.inputs).sum := by
      simp [buildResult, foldl_outgoingPending, initState]
    rw [h1, h2]
    exact ((hperm.filter _).map _).sum_eq
  · rw [show (buildResult address transactions ks).availableBalance =
        availableBalanceOf ((buildResult address transactions ks).utxos) from rfl,
      show (buildResult address transactions' ks').availableBalance =
        availableBalanceOf ((buildResult address transactions' ks').utxos) from rfl,
      availableBalanceOf_eq, availableBalanceOf_eq]
    exact ((hUperm.filter _).map _).sum_eq
  · rw [show (buildResult address transactions ks).unspentUTXOs =
        (((buildResult address transactions ks).utxos).filter fun p => !p.2.spent).map
          (fun p => (⟨p.1, p.2.value, p.2.confirmed⟩ : UnspentUTXO)) from rfl,
      show (buildResult address transactions' ks').unspentUTXOs =
        (((buildResult address transactions' ks').utxos).filter fun p => !p.2.spent).map
          (fun p => (⟨p.1, p.2.value, p.2.confirmed⟩ : UnspentUTXO)) from rfl]
    exact (hUperm.filter _).map _

/-- Counterexample to C5 as stated: two records sharing the hash "h" with
conflicting content.  In one order the confirmed 5-satoshi entry is
overwritten by the pending 7-satoshi one (availableBalance 0); in the other
order the pending entry is overwritten by the confirmed one
(availableBalance 5).  The classification therefore depends on the order. -/
theorem claim_C5_counterexample :
    ([⟨some "h", some 1, [⟨"a", 5⟩], []⟩, ⟨some "h", none, [⟨"a", 7⟩], []⟩] : List Tx).Perm
      [⟨some "h", none, [⟨"a", 7⟩], []⟩, ⟨some "h", some 1, [⟨"a", 5⟩], []⟩] ∧
    (analyzeUTXOs "a"
        [⟨some "h", some 1, [⟨"a", 5⟩], []⟩, ⟨some "h", none, [⟨"a", 7⟩], []⟩]).map
      (fun r => r.availableBalance) = some 0 ∧
    (analyzeUTXOs "a"
        [⟨some "h", none, [⟨"a", 7⟩], []⟩, ⟨some "h", some 1, [⟨"a", 5⟩], []⟩]).map
      (fun r => r.availableBalance) = some 5 :=
  ⟨List.Perm.swap _ _ _, rfl, rfl⟩

/-- Witness for C5 (amended) at a concrete permutation of two
distinct-hash transactions. -/
theorem claim_C5_witness :
    ∃ r r',
      analyzeUTXOs "a"
        [⟨some "x", some 1, [⟨"a", 5⟩], []⟩, ⟨some "y", none, [⟨"a", 7⟩], []⟩] = some r ∧
      analyzeUTXOs "a"
        [⟨some "y", none, [⟨"a", 7⟩], []⟩, ⟨some "x", some 1, [⟨"a", 5⟩], []⟩] = some r' ∧
      r.availableBalance = r'.availableBalance ∧ r.utxos.Perm r'.utxos := by
  obtain ⟨h1, h2, h3, h4, h5, h6, h7⟩ :=
    claim_C5 "a"
      [⟨some "x", some 1, [⟨"a", 5⟩], []⟩, ⟨some "y", none, [⟨"a", 7⟩], []⟩]
      [⟨some "y", none, [⟨"a", 7⟩], []⟩, ⟨some "x", some 1, [⟨"a", 5⟩], []⟩]
      (List.Perm.swap _ _ _) (by decide) _ _ rfl rfl
  exact ⟨_, _, rfl, rfl, h5, h6⟩
